/- Verification of the cctool record model and conversion pipeline.

The development shallowly embeds the core of cctool.py: the ordered
multi-valued record type MultiDict, the field remapper map_keys, the kind
translator event2person, the outer-join merge, and the sort/translate steps
of the driver pipeline.  A Python MultiDict is modelled as an ordered
association list from field name to value sequence (one slot per key, as an
OrderedDict guarantees); dict iteration order is slot order.  Python
exceptions are modelled with Except, and the mutating methods are modelled
as functions returning the updated record. -/
import Mathlib

/-- A Python MultiDict (an OrderedDict subclass): an ordered association list
from field name to list of values, one slot per key, in insertion order. -/
abbrev MultiDict (α : Type) : Type := List (String × List α)

/-- Plain OrderedDict lookup (Python `super().__getitem__` / key slot lookup):
the value of the first slot carrying the key, if any. -/
def MultiDict.rawGet {α : Type} : MultiDict α → String → Option (List α)
  | [], _ => none
  | p :: ps, k => if p.1 = k then some p.2 else MultiDict.rawGet ps k

/-- Iteration order of the dict: the slot keys in order (Python `list(d)`). -/
def MultiDict.keys {α : Type} (d : MultiDict α) : List String :=
  List.map Prod.fst d

/-- MultiDict.__contains__: the key has a slot and its value is not `[]`. -/
def MultiDict.contains {α : Type} (d : MultiDict α) (k : String) : Bool :=
  match MultiDict.rawGet d k with
  | some vs => !vs.isEmpty
  | none => false

/-- MultiDict.__getitem__: the slot value when the key is contained
(non-empty), the empty list otherwise. -/
def MultiDict.getItem {α : Type} (d : MultiDict α) (k : String) : List α :=
  if MultiDict.contains d k then (MultiDict.rawGet d k).getD [] else []

/-- OrderedDict.__setitem__: replace the value of an existing slot in place,
otherwise add a new slot at the end. -/
def MultiDict.setItem {α : Type} : MultiDict α → String → List α → MultiDict α
  | [], k, vs => [(k, vs)]
  | p :: ps, k, vs => if p.1 = k then (k, vs) :: ps else p :: MultiDict.setItem ps k vs

/-- MultiDict.append: add each value not already present to the field,
through `self[key] = self[key] + [value]`. -/
def MultiDict.append {α : Type} [DecidableEq α] (d : MultiDict α) (k : String) (values : List α) : MultiDict α :=
  List.foldl
    (fun d v =>
      if v ∈ MultiDict.getItem d k then d
      else MultiDict.setItem d k (MultiDict.getItem d k ++ [v]))
    d values

/-- MultiDict.update: append, field by field in the other record's iteration
order, the other record's values. -/
def MultiDict.update {α : Type} [DecidableEq α] (d other : MultiDict α) : MultiDict α :=
  List.foldl (fun d k => MultiDict.append d k (MultiDict.getItem other k)) d
    (MultiDict.keys other)

/-- MultiDict.join with signature join(key, default='', sep=','): the single
value if the field has exactly one value, else the values interleaved with
`sep`; when the field is absent, the default unless it is None (modelled as
`none`), in which case a KeyError carrying the key is raised. -/
def MultiDict.join (d : MultiDict String) (k : String) (dflt : Option String) (sep : String) : Except String String :=
  if MultiDict.contains d k then
    match MultiDict.getItem d k with
    | [v] => Except.ok v
    | vs => Except.ok (String.intercalate sep vs)
  else
    match dflt with
    | some s => Except.ok s
    | none => Except.error k

/-- Equality of two MultiDicts as Python evaluates `d1 == d2`: both are
OrderedDict instances, so the comparison is dict equality (same keys, each
mapped to an equal value) plus equality of the key orders. -/
def MultiDict.pyEq {α : Type} [DecidableEq α] (d1 d2 : MultiDict α) : Bool :=
  decide (MultiDict.keys d1 = MultiDict.keys d2) &&
    List.all d1 (fun p => decide (MultiDict.rawGet d2 p.1 = some p.2))

/-- Python `set(xs).isdisjoint(ys)`: no common element. -/
def disjointB {α : Type} [DecidableEq α] (xs ys : List α) : Bool :=
  List.all xs (fun x => !decide (x ∈ ys))

/-- Inner loop of `merged`: scan the groups formed so far and fold the entry
into the first group whose key values are not disjoint from the entry's
(then stop), else append the entry as a new group. -/
def mergeStep {α : Type} [DecidableEq α] : List (MultiDict α) → MultiDict α → String → List (MultiDict α)
  | [], entry, _ => [entry]
  | g :: gs, entry, key =>
    if disjointB (MultiDict.getItem entry key) (MultiDict.getItem g key) then
      g :: mergeStep gs entry key
    else
      MultiDict.update g entry :: gs

/-- merged(data, key): outer join of `data` on `key`, one mergeStep per entry. -/
def merged {α : Type} [DecidableEq α] (data : List (MultiDict α)) (key : String) : List (MultiDict α) :=
  List.foldl (fun tmp entry => mergeStep tmp entry key) [] data

/-- Lookup in a translation table with Python dict construction semantics:
the last pair carrying the key wins. -/
def dlookup (t : List (String × String)) (k : String) : Option String :=
  List.foldl (fun acc p => if p.1 = k then some p.2 else acc) none t

/-- Python `dict((value, key) for key, value in _map.items())`. -/
def revTable (t : List (String × String)) : List (String × String) :=
  List.map (fun p => (p.2, p.1)) t

/-- Loop body of map_keys: one source key is appended to the output record
under its translated name, or under its own name when the table misses it
and the mapping is not exclusive. -/
def mkStep {α : Type} [DecidableEq α] (mdict : MultiDict α) (t : List (String × String)) (exclusive : Bool) (out : MultiDict α) (k : String) : MultiDict α :=
  match dlookup t k with
  | some m => MultiDict.append out m (MultiDict.getItem mdict k)
  | none => if exclusive then out else MultiDict.append out k (MultiDict.getItem mdict k)

/-- map_keys(mdict, _map, reverse, exclusive): build a fresh record by
folding mkStep over the source record's keys, with the table reversed
when `reverse` is set. -/
def map_keys {α : Type} [DecidableEq α] (mdict : MultiDict α) (t : List (String × String)) (reverse exclusive : Bool) : MultiDict α :=
  List.foldl (mkStep mdict (if reverse then revTable t else t) exclusive) []
    (MultiDict.keys mdict)

/-- The translation table literal of event2person. -/
def eventTable : List (String × String) :=
  [( "summary", "name" ), ( "dtstart", "bday" )]

/-- event2person(data, reverse): remap every record through eventTable
(non-exclusively); in reverse additionally append freq=[yearly] when the
source has a bday, and keep only records whose target has a dtstart. -/
def event2person (data : List (MultiDict String)) (reverse : Bool) : List (MultiDict String) :=
  List.filterMap
    (fun source =>
      let t0 := map_keys source eventTable reverse false
      let target :=
        if reverse && MultiDict.contains source "bday" then
          MultiDict.append t0 "freq" [ "yearly" ]
        else t0
      if !reverse || MultiDict.contains target "dtstart" then some target else none)
    data

/-- The PERSON format family constant. -/
def PERSON : List String := [ "abook", "ldif" ]

/-- The EVENT format family constant. -/
def EVENT : List String := [ "bsdcal", "ics" ]

/-- The kind-translation step of main(): forward event2person when the
output format is of the person family, then reverse event2person when it is
of the event family.  Only the output format is consulted. -/
def translateStep (outformat : String) (data : List (MultiDict String)) : List (MultiDict String) :=
  let data1 := if outformat ∈ PERSON then event2person data false else data
  if outformat ∈ EVENT then event2person data1 true else data1

/-- Python comparison `a < b` on single characters: by code point. -/
def charLtB (a b : Char) : Bool := decide (a.val.toNat < b.val.toNat)

/-- Python comparison `a < b` on strings: lexicographic by code points. -/
def lexLtB : List Char → List Char → Bool
  | [], [] => false
  | [], _ :: _ => true
  | _ :: _, [] => false
  | a :: as, b :: bs => if charLtB a b then true else if charLtB b a then false else lexLtB as bs

/-- Python comparison `a < b` on strings, on the underlying character data. -/
def strLtB (a b : String) : Bool := lexLtB a.data b.data

/-- Python comparison `xs <= ys` of two value lists under the strict order
`lt`, as used by sorted() on the lists produced by the sort key
`lambda x: x[field]`: elementwise, the first strictly smaller element
decides, a strict prefix is smaller. -/
def pyListLe {α : Type} (lt : α → α → Bool) : List α → List α → Bool
  | [], _ => true
  | _ :: _, [] => false
  | a :: as, b :: bs => if lt a b then true else if lt b a then false else pyListLe lt as bs

/-- Stable insertion of one element into a sorted accumulator: the element
goes after every element that is less-or-equal to it. -/
def insortBy {α : Type} (le : α → α → Bool) (x : α) : List α → List α
  | [] => [x]
  | y :: ys => if le y x then y :: insortBy le x ys else x :: y :: ys

/-- Stable ascending sort, the specification of Python's sorted(). -/
def sortBy {α : Type} (le : α → α → Bool) (xs : List α) : List α :=
  List.foldl (fun acc x => insortBy le x acc) [] xs

/-- The sort step of main(): `sorted(data, key=lambda x: x[args.sort])`, a
stable ascending sort whose key is the record's whole value list for the
field (the empty list when the field is absent). -/
def sortByField (data : List (MultiDict String)) (field : String) : List (MultiDict String) :=
  sortBy (fun x y => pyListLe strLtB (MultiDict.getItem x field) (MultiDict.getItem y field)) data

/-- Auxiliary dedup-extend: fold the values onto the base list, skipping
values already accumulated (the net effect of MultiDict.append on the
field's value list). -/
def dedupAppend {α : Type} [DecidableEq α] (base vs : List α) : List α :=
  List.foldl (fun acc v => if v ∈ acc then acc else acc ++ [v]) base vs

/-- Values of `vs` not in `base`, first occurrence kept, in order. -/
def dedupNew {α : Type} [DecidableEq α] : List α → List α → List α
  | _, [] => []
  | base, v :: vs => if v ∈ base then dedupNew base vs else v :: dedupNew (base ++ [v]) vs

/-- Where one source key of map_keys is routed: its translated name when the
table has it, itself when the mapping is not exclusive, nowhere otherwise. -/
def outKey (t : List (String × String)) (exclusive : Bool) (k : String) : Option String :=
  match dlookup t k with
  | some m => some m
  | none => if exclusive then none else some k

/-- Python's read `mdict[key]` with the record state threaded explicitly: a
read returns the value and leaves the record unchanged. -/
def getItemR {α : Type} (d : MultiDict α) (k : String) : List α × MultiDict α :=
  (MultiDict.getItem d k, d)

/-- map_keys with the state of the input record threaded through every
access the loop makes to it, so that mutation of the input would be visible
in the first component of the result. -/
def map_keysTr {α : Type} [DecidableEq α] (mdict : MultiDict α) (t : List (String × String)) (reverse exclusive : Bool) : MultiDict α × MultiDict α :=
  let t1 := if reverse then revTable t else t
  List.foldl
    (fun st k =>
      let r := getItemR st.1 k
      match dlookup t1 k with
      | some m => (r.2, MultiDict.append st.2 m r.1)
      | none => if exclusive then (r.2, st.2) else (r.2, MultiDict.append st.2 k r.1))
    (mdict, []) (MultiDict.keys mdict)

/-- Modelled from the spec: the kind-translation step as the spec words it,
applied exactly when the output format is of the person family and the
input format of the event family, or vice versa (for comparison with
translateStep, which follows the code). -/
def translateStepSpec (informat outformat : String) (data : List (MultiDict String)) : List (MultiDict String) :=
  if outformat ∈ PERSON ∧ informat ∈ EVENT then event2person data false
  else if outformat ∈ EVENT ∧ informat ∈ PERSON then event2person data true
  else data

/-- Modelled from the spec: comparison of two records by the first value of
the sort field, an absent field counting as the natural empty value that
sorts before every value. -/
def firstValLe (field : String) (x y : MultiDict String) : Bool :=
  match List.head? (MultiDict.getItem x field), List.head? (MultiDict.getItem y field) with
  | none, _ => true
  | some _, none => false
  | some a, some b => !strLtB b a

/-- Modelled from the spec: the sort step as the claim words it, a stable
ascending sort keyed by the record's first value for the field (for
comparison with sortByField, which follows the code). -/
def sortByFirstValue (data : List (MultiDict String)) (field : String) : List (MultiDict String) :=
  sortBy (firstValLe field) data

/-- All value lists stored in the record are free of duplicates (the
invariant MultiDict.append maintains). -/
abbrev valsNodup {α : Type} (d : MultiDict α) : Prop :=
  ∀ p ∈ d, (Prod.snd p).Nodup

/-- The record has one slot per key, as an OrderedDict always does. -/
abbrev keysNodup {α : Type} (d : MultiDict α) : Prop :=
  (MultiDict.keys d).Nodup

theorem rawGet_setItem {α : Type} (d : MultiDict α) (k k1 : String) (vs : List α) :
    MultiDict.rawGet (MultiDict.setItem d k vs) k1 =
      if k1 = k then some vs else MultiDict.rawGet d k1 := by
  induction d with
  | nil =>
    by_cases h : k1 = k
    · subst h; simp [MultiDict.setItem, MultiDict.rawGet]
    · simp [MultiDict.setItem, MultiDict.rawGet, h, Ne.symm h]
  | cons p ps ih =>
    by_cases hp : p.1 = k
    · by_cases h : k1 = k
      · subst h; simp [MultiDict.setItem, MultiDict.rawGet, hp]
      · have h2 : ¬ k = k1 := fun hh => h hh.symm
        have h3 : ¬ p.1 = k1 := by rw [hp]; exact h2
        simp [MultiDict.setItem, MultiDict.rawGet, hp, h, h2, h3]
    · by_cases h : k1 = k
      · subst h
        simp [MultiDict.setItem, MultiDict.rawGet, hp, ih]
      · simp [MultiDict.setItem, MultiDict.rawGet, hp, h, ih]

theorem keys_setItem {α : Type} (d : MultiDict α) (k : String) (vs : List α) :
    MultiDict.keys (MultiDict.setItem d k vs) =
      if k ∈ MultiDict.keys d then MultiDict.keys d else MultiDict.keys d ++ [k] := by
  induction d with
  | nil => simp [MultiDict.setItem, MultiDict.keys]
  | cons p ps ih =>
    by_cases hp : p.1 = k
    · simp [MultiDict.setItem, MultiDict.keys, hp]
    · have h2 : ¬ k = p.1 := fun hh => hp hh.symm
      simp only [MultiDict.keys] at ih
      simp only [MultiDict.setItem, if_neg hp, MultiDict.keys, List.map_cons,
        List.mem_cons, h2, false_or]
      rw [ih]
      by_cases hm : k ∈ List.map Prod.fst ps <;> simp [hm]

theorem rawGet_eq_none_iff {α : Type} (d : MultiDict α) (k : String) :
    MultiDict.rawGet d k = none ↔ k ∉ MultiDict.keys d := by
  induction d with
  | nil => simp [MultiDict.rawGet, MultiDict.keys]
  | cons p ps ih =>
    simp only [MultiDict.keys] at ih
    by_cases hp : p.1 = k
    · simp [MultiDict.rawGet, MultiDict.keys, hp]
    · have h2 : ¬ k = p.1 := fun hh => hp hh.symm
      simp [MultiDict.rawGet, MultiDict.keys, hp, h2, ih]

theorem rawGet_mem {α : Type} {d : MultiDict α} {k : String} {vs : List α}
    (h : MultiDict.rawGet d k = some vs) : (k, vs) ∈ d := by
  induction d with
  | nil => simp [MultiDict.rawGet] at h
  | cons p ps ih =>
    by_cases hp : p.1 = k
    · simp [MultiDict.rawGet, hp] at h
      subst hp
      simp [← h]
    · simp [MultiDict.rawGet, hp] at h
      simp [ih h]

theorem getItem_eq {α : Type} (d : MultiDict α) (k : String) :
    MultiDict.getItem d k = (MultiDict.rawGet d k).getD [] := by
  cases h : MultiDict.rawGet d k with
  | none => simp [MultiDict.getItem, MultiDict.contains, h]
  | some vs =>
    cases vs with
    | nil => simp [MultiDict.getItem, MultiDict.contains, h]
    | cons v vt => simp [MultiDict.getItem, MultiDict.contains, h]

theorem contains_iff_getItem {α : Type} (d : MultiDict α) (k : String) :
    MultiDict.contains d k = true ↔ MultiDict.getItem d k ≠ [] := by
  rw [getItem_eq]
  cases h : MultiDict.rawGet d k with
  | none => simp [MultiDict.contains, h]
  | some vs => cases vs with
    | nil => simp [MultiDict.contains, h]
    | cons v vt => simp [MultiDict.contains, h]

theorem getItem_of_not_contains {α : Type} {d : MultiDict α} {k : String}
    (h : MultiDict.contains d k = false) : MultiDict.getItem d k = [] := by
  by_contra hne
  have hc := (contains_iff_getItem d k).2 hne
  rw [h] at hc
  exact Bool.false_ne_true hc

theorem getItem_of_not_mem_keys {α : Type} {d : MultiDict α} {k : String}
    (h : k ∉ MultiDict.keys d) : MultiDict.getItem d k = [] := by
  rw [getItem_eq, (rawGet_eq_none_iff d k).2 h]
  rfl

theorem getItem_setItem_self {α : Type} (d : MultiDict α) (k : String) (vs : List α) :
    MultiDict.getItem (MultiDict.setItem d k vs) k = vs := by
  rw [getItem_eq, rawGet_setItem]
  simp

theorem getItem_setItem_ne {α : Type} (d : MultiDict α) {k k1 : String} (vs : List α)
    (h : k1 ≠ k) : MultiDict.getItem (MultiDict.setItem d k vs) k1 = MultiDict.getItem d k1 := by
  rw [getItem_eq, rawGet_setItem, if_neg h, ← getItem_eq]

theorem append_nil {α : Type} [DecidableEq α] (d : MultiDict α) (k : String) :
    MultiDict.append d k [] = d := rfl

theorem append_cons {α : Type} [DecidableEq α] (d : MultiDict α) (k : String) (v : α) (vs : List α) :
    MultiDict.append d k (v :: vs) =
      MultiDict.append
        (if v ∈ MultiDict.getItem d k then d
         else MultiDict.setItem d k (MultiDict.getItem d k ++ [v])) k vs := rfl

theorem dedupAppend_nil {α : Type} [DecidableEq α] (base : List α) :
    dedupAppend base [] = base := rfl

theorem dedupAppend_cons {α : Type} [DecidableEq α] (base : List α) (v : α) (vs : List α) :
    dedupAppend base (v :: vs) =
      dedupAppend (if v ∈ base then base else base ++ [v]) vs := rfl

theorem getItem_append_self {α : Type} [DecidableEq α] (d : MultiDict α) (k : String) (vs : List α) :
    MultiDict.getItem (MultiDict.append d k vs) k = dedupAppend (MultiDict.getItem d k) vs := by
  induction vs generalizing d with
  | nil => rfl
  | cons v vt ih =>
    rw [append_cons, dedupAppend_cons, ih]
    by_cases hv : v ∈ MultiDict.getItem d k
    · simp [hv]
    · simp [hv, getItem_setItem_self]

theorem getItem_append_ne {α : Type} [DecidableEq α] (d : MultiDict α) {k k1 : String} (vs : List α)
    (h : k1 ≠ k) :
    MultiDict.getItem (MultiDict.append d k vs) k1 = MultiDict.getItem d k1 := by
  induction vs generalizing d with
  | nil => rfl
  | cons v vt ih =>
    rw [append_cons, ih]
    by_cases hv : v ∈ MultiDict.getItem d k
    · simp [hv]
    · simp [hv, getItem_setItem_ne _ _ h]

theorem dedupAppend_eq_append_dedupNew {α : Type} [DecidableEq α] (base vs : List α) :
    dedupAppend base vs = base ++ dedupNew base vs := by
  induction vs generalizing base with
  | nil => simp [dedupAppend_nil, dedupNew]
  | cons v vt ih =>
    rw [dedupAppend_cons, dedupNew]
    by_cases hv : v ∈ base
    · simp [hv, ih]
    · simp only [if_neg hv, ih]
      simp

theorem dedupNew_eq_self {α : Type} [DecidableEq α] {base vs : List α}
    (hnd : vs.Nodup) (hdis : ∀ v ∈ vs, v ∉ base) : dedupNew base vs = vs := by
  induction vs generalizing base with
  | nil => rfl
  | cons v vt ih =>
    have hv : v ∉ base := hdis v (by simp)
    rw [dedupNew, if_neg hv]
    congr 1
    apply ih (List.Nodup.of_cons hnd)
    intro u hu
    simp only [List.mem_append, List.mem_singleton]
    rintro (h1 | h2)
    · exact hdis u (by simp [hu]) h1
    · exact (List.nodup_cons.1 hnd).1 (h2 ▸ hu)

theorem dedupAppend_nil_left {α : Type} [DecidableEq α] {vs : List α} (hnd : vs.Nodup) :
    dedupAppend [] vs = vs := by
  rw [dedupAppend_eq_append_dedupNew, dedupNew_eq_self hnd (by simp)]
  simp

theorem getItem_foldl_mkStep {α : Type} [DecidableEq α] (r : MultiDict α)
    (t : List (String × String)) (ex : Bool) (k1 : String) (ks : List String) :
    ∀ out : MultiDict α,
      MultiDict.getItem (List.foldl (mkStep r t ex) out ks) k1 =
        List.foldl (fun acc k => dedupAppend acc (MultiDict.getItem r k))
          (MultiDict.getItem out k1)
          (List.filter (fun k => decide (outKey t ex k = some k1)) ks) := by
  induction ks with
  | nil => intro out; simp
  | cons k kt ih =>
    intro out
    rw [List.foldl_cons, ih]
    cases hdl : dlookup t k with
    | some m =>
      by_cases hm : m = k1
      · subst hm
        simp [List.filter_cons, outKey, hdl, mkStep, getItem_append_self]
      · have hout : ¬ outKey t ex k = some k1 := by simp [outKey, hdl, hm]
        simp [List.filter_cons, hout, mkStep, hdl, getItem_append_ne _ _ (Ne.symm hm)]
    | none =>
      by_cases hex : ex = true
      · subst hex
        have hout : ¬ outKey t true k = some k1 := by simp [outKey, hdl]
        simp [List.filter_cons, hout, mkStep, hdl]
      · have hexf : ex = false := by simpa using hex
        subst hexf
        by_cases hk : k = k1
        · subst hk
          have hout : outKey t false k = some k := by simp [outKey, hdl]
          simp [List.filter_cons, hout, mkStep, hdl, getItem_append_self]
        · have hout : ¬ outKey t false k = some k1 := by simp [outKey, hdl, hk]
          simp [List.filter_cons, hout, mkStep, hdl, getItem_append_ne _ _ (Ne.symm hk)]

theorem getItem_map_keys {α : Type} [DecidableEq α] (r : MultiDict α)
    (t : List (String × String)) (rev ex : Bool) (k1 : String) :
    MultiDict.getItem (map_keys r t rev ex) k1 =
      List.foldl (fun acc k => dedupAppend acc (MultiDict.getItem r k)) []
        (List.filter (fun k => decide (outKey (if rev then revTable t else t) ex k = some k1))
          (MultiDict.keys r)) := by
  rw [map_keys, getItem_foldl_mkStep]
  rfl

theorem filter_eq_nil_of {p : String → Bool} {a : String} {ks : List String}
    (h : ∀ k ∈ ks, p k = true → k = a) (ha : a ∉ ks) : ks.filter p = [] := by
  rw [List.filter_eq_nil_iff]
  intro k hk hpk
  exact ha (h k hk hpk ▸ hk)

theorem filter_eq_single_of {p : String → Bool} {a : String} {ks : List String}
    (h : ∀ k ∈ ks, p k = true ↔ k = a) (nd : ks.Nodup) (ha : a ∈ ks) :
    ks.filter p = [a] := by
  induction ks with
  | nil => cases ha
  | cons k kt ih =>
    rcases List.mem_cons.1 ha with h1 | h1
    · subst h1
      rw [List.filter_cons_of_pos ((h a (by simp)).2 rfl)]
      have : kt.filter p = [] := by
        apply filter_eq_nil_of (a := a)
        · intro u hu hpu
          exact (h u (by simp [hu])).1 hpu
        · exact (List.nodup_cons.1 nd).1
      rw [this]
    · have hk : ¬ p k = true := by
        intro hpk
        have hka := (h k (by simp)).1 hpk
        exact (List.nodup_cons.1 nd).1 (hka ▸ h1)
      rw [List.filter_cons_of_neg (by simpa using hk)]
      exact ih (fun u hu => h u (by simp [hu])) (List.nodup_cons.1 nd).2 h1

theorem foldl_dedupAppend_nil {α : Type} [DecidableEq α] (f : String → List α) :
    ∀ (ks : List String) (acc : List α), (∀ k ∈ ks, f k = []) →
      List.foldl (fun acc k => dedupAppend acc (f k)) acc ks = acc := by
  intro ks
  induction ks with
  | nil => intro acc h; rfl
  | cons k kt ih =>
    intro acc h
    rw [List.foldl_cons, h k (by simp), dedupAppend_nil]
    exact ih _ (fun u hu => h u (by simp [hu]))

theorem getItem_map_keys_single {α : Type} [DecidableEq α] (r : MultiDict α)
    (t : List (String × String)) (rev ex : Bool) (src dst : String)
    (h : ∀ k ∈ MultiDict.keys r,
      (outKey (if rev then revTable t else t) ex k = some dst) ↔ k = src)
    (hnd : keysNodup r) (hv : (MultiDict.getItem r src).Nodup) :
    MultiDict.getItem (map_keys r t rev ex) dst = MultiDict.getItem r src := by
  rw [getItem_map_keys]
  by_cases hm : src ∈ MultiDict.keys r
  · rw [filter_eq_single_of (a := src) (fun k hk => by simpa using h k hk) hnd hm]
    simp [dedupAppend_nil_left hv]
  · rw [filter_eq_nil_of (a := src) (fun k hk hpk => (h k hk).1 (by simpa using hpk)) hm]
    simp [getItem_of_not_mem_keys hm]

theorem getItem_map_keys_empty {α : Type} [DecidableEq α] (r : MultiDict α)
    (t : List (String × String)) (rev ex : Bool) (dst : String)
    (h : ∀ k ∈ MultiDict.keys r,
      outKey (if rev then revTable t else t) ex k = some dst → MultiDict.getItem r k = []) :
    MultiDict.getItem (map_keys r t rev ex) dst = [] := by
  rw [getItem_map_keys]
  apply foldl_dedupAppend_nil
  intro k hk
  have := List.mem_filter.1 hk
  exact h k this.1 (by simpa using this.2)

theorem dlookup_eventTable (k : String) :
    dlookup eventTable k =
      if k = "summary" then some "name"
      else if k = "dtstart" then some "bday" else none := by
  by_cases h1 : k = "summary"
  · subst h1; rfl
  · by_cases h2 : k = "dtstart"
    · subst h2; rfl
    · have g1 : ¬ ( "summary" : String) = k := fun hh => h1 hh.symm
      have g2 : ¬ ( "dtstart" : String) = k := fun hh => h2 hh.symm
      simp [dlookup, eventTable, g1, g2, h1, h2]

theorem dlookup_revEventTable (k : String) :
    dlookup (revTable eventTable) k =
      if k = "name" then some "summary"
      else if k = "bday" then some "dtstart" else none := by
  by_cases h1 : k = "name"
  · subst h1; rfl
  · by_cases h2 : k = "bday"
    · subst h2; rfl
    · have g1 : ¬ ( "name" : String) = k := fun hh => h1 hh.symm
      have g2 : ¬ ( "bday" : String) = k := fun hh => h2 hh.symm
      simp [dlookup, revTable, eventTable, g1, g2, h1, h2]

theorem outKey_eventTable (k : String) :
    outKey eventTable false k =
      if k = "summary" then some "name"
      else if k = "dtstart" then some "bday" else some k := by
  rw [outKey, dlookup_eventTable]
  by_cases h1 : k = "summary" <;> by_cases h2 : k = "dtstart" <;> simp [h1, h2]

theorem outKey_revEventTable (k : String) :
    outKey (revTable eventTable) false k =
      if k = "name" then some "summary"
      else if k = "bday" then some "dtstart" else some k := by
  rw [outKey, dlookup_revEventTable]
  by_cases h1 : k = "name" <;> by_cases h2 : k = "bday" <;> simp [h1, h2]

theorem disjointB_nil_left {α : Type} [DecidableEq α] (ys : List α) :
    disjointB [] ys = true := rfl

theorem disjointB_nil_right {α : Type} [DecidableEq α] (xs : List α) :
    disjointB xs [] = true := by
  simp [disjointB]

theorem mergeStep_all_disjoint {α : Type} [DecidableEq α] {e : MultiDict α} {key : String}
    {tmp : List (MultiDict α)}
    (h : ∀ g ∈ tmp, disjointB (MultiDict.getItem e key) (MultiDict.getItem g key) = true) :
    mergeStep tmp e key = tmp ++ [e] := by
  induction tmp with
  | nil => rfl
  | cons g gs ih =>
    simp [mergeStep, h g (by simp)]
    exact ih (fun u hu => h u (by simp [hu]))

theorem mergeStep_first_overlap {α : Type} [DecidableEq α] {e : MultiDict α} {key : String}
    (tmp1 : List (MultiDict α)) (g : MultiDict α) (tmp2 : List (MultiDict α))
    (h1 : ∀ u ∈ tmp1, disjointB (MultiDict.getItem e key) (MultiDict.getItem u key) = true)
    (h2 : disjointB (MultiDict.getItem e key) (MultiDict.getItem g key) = false) :
    mergeStep (tmp1 ++ g :: tmp2) e key = tmp1 ++ MultiDict.update g e :: tmp2 := by
  induction tmp1 with
  | nil => simp [mergeStep, h2]
  | cons u us ih =>
    simp [mergeStep, h1 u (by simp)]
    exact ih (fun w hw => h1 w (by simp [hw]))

theorem merged_append {α : Type} [DecidableEq α] (data : List (MultiDict α)) (key : String)
    (e : MultiDict α) :
    merged (data ++ [e]) key = mergeStep (merged data key) e key := by
  simp [merged, List.foldl_append]

theorem mergeStep_of_missing {α : Type} [DecidableEq α] {e : MultiDict α} {key : String}
    (tmp : List (MultiDict α)) (h : MultiDict.getItem e key = []) :
    mergeStep tmp e key = tmp ++ [e] := by
  apply mergeStep_all_disjoint
  intro g hg
  rw [h]
  rfl

theorem foldl_mergeStep_all_missing {α : Type} [DecidableEq α] {key : String} :
    ∀ (data : List (MultiDict α)) (acc : List (MultiDict α)),
      (∀ d ∈ data, MultiDict.getItem d key = []) →
      List.foldl (fun tmp entry => mergeStep tmp entry key) acc data = acc ++ data := by
  intro data
  induction data with
  | nil => intro acc h; simp
  | cons e es ih =>
    intro acc h
    rw [List.foldl_cons, mergeStep_of_missing acc (h e (by simp)),
      ih _ (fun u hu => h u (by simp [hu]))]
    simp

theorem merged_all_missing {α : Type} [DecidableEq α] {key : String}
    {data : List (MultiDict α)} (h : ∀ d ∈ data, MultiDict.getItem d key = []) :
    merged data key = data := by
  rw [merged, foldl_mergeStep_all_missing data [] h]
  rfl

theorem charLtB_irrefl (a : Char) : charLtB a a = false := by
  simp [charLtB]

theorem charLtB_trans {a b c : Char} (h1 : charLtB a b = true) (h2 : charLtB b c = true) :
    charLtB a c = true := by
  simp only [charLtB, decide_eq_true_eq] at h1 h2 ⊢
  exact Nat.lt_trans h1 h2

theorem charLtB_eq {a b : Char} (h1 : charLtB a b = false) (h2 : charLtB b a = false) :
    a = b := by
  have g1 : ¬ a.val.toNat < b.val.toNat := by simpa [charLtB] using h1
  have g2 : ¬ b.val.toNat < a.val.toNat := by simpa [charLtB] using h2
  apply Char.ext
  apply UInt32.ext
  exact Nat.le_antisymm (Nat.not_lt.1 g2) (Nat.not_lt.1 g1)

theorem lexLtB_irrefl (l : List Char) : lexLtB l l = false := by
  induction l with
  | nil => rfl
  | cons a as ih => simp [lexLtB, charLtB_irrefl, ih]

theorem lexLtB_trans : ∀ (l1 l2 l3 : List Char), lexLtB l1 l2 = true → lexLtB l2 l3 = true →
    lexLtB l1 l3 = true := by
  intro l1
  induction l1 with
  | nil =>
    intro l2 l3 h1 h2
    cases l2 with
    | nil => exact h2
    | cons b bs =>
      cases l3 with
      | nil => simp [lexLtB] at h2
      | cons c cs => rfl
  | cons a as ih =>
    intro l2 l3 h1 h2
    cases l2 with
    | nil => simp [lexLtB] at h1
    | cons b bs =>
      cases l3 with
      | nil => simp [lexLtB] at h2
      | cons c cs =>
        rw [lexLtB] at h1 h2 ⊢
        by_cases hab : charLtB a b = true
        · by_cases hbc : charLtB b c = true
          · simp [charLtB_trans hab hbc]
          · by_cases hcb : charLtB c b = true
            · simp [hbc, hcb] at h2
            · have hbc2 := charLtB_eq (by simpa using hbc) (by simpa using hcb)
              subst hbc2
              simp [hab]
        · by_cases hba : charLtB b a = true
          · simp [hab, hba] at h1
          · have hab2 := charLtB_eq (by simpa using hab) (by simpa using hba)
            subst hab2
            simp only [charLtB_irrefl, Bool.false_eq_true, if_false] at h1 h2 ⊢
            by_cases hac : charLtB a c = true
            · simp [hac]
            · by_cases hca : charLtB c a = true
              · simp [hac, hca] at h2
              · have hac2 := charLtB_eq (by simpa using hac) (by simpa using hca)
                subst hac2
                simp only [charLtB_irrefl, Bool.false_eq_true, if_false] at h1 h2 ⊢
                exact ih bs cs h1 h2

theorem lexLtB_eq_of : ∀ (l1 l2 : List Char), lexLtB l1 l2 = false → lexLtB l2 l1 = false →
    l1 = l2 := by
  intro l1
  induction l1 with
  | nil =>
    intro l2 h1 h2
    cases l2 with
    | nil => rfl
    | cons b bs => simp [lexLtB] at h1
  | cons a as ih =>
    intro l2 h1 h2
    cases l2 with
    | nil => simp [lexLtB] at h2
    | cons b bs =>
      rw [lexLtB] at h1 h2
      by_cases hab : charLtB a b = true
      · simp [hab] at h1
      · by_cases hba : charLtB b a = true
        · simp [hba, hab] at h2
        · have hab2 := charLtB_eq (by simpa using hab) (by simpa using hba)
          subst hab2
          simp only [charLtB_irrefl, Bool.false_eq_true, if_false] at h1 h2
          rw [ih bs h1 h2]

theorem strLtB_irrefl (a : String) : strLtB a a = false :=
  lexLtB_irrefl a.data

theorem strLtB_trans {a b c : String} (h1 : strLtB a b = true) (h2 : strLtB b c = true) :
    strLtB a c = true :=
  lexLtB_trans a.data b.data c.data h1 h2

theorem strLtB_eq {a b : String} (h1 : strLtB a b = false) (h2 : strLtB b a = false) :
    a = b := by
  have h := lexLtB_eq_of a.data b.data h1 h2
  cases a
  cases b
  exact congrArg String.mk h

theorem pyListLe_total {α : Type} (lt : α → α → Bool) :
    ∀ xs ys : List α, pyListLe lt xs ys = true ∨ pyListLe lt ys xs = true := by
  intro xs
  induction xs with
  | nil => intro ys; left; rfl
  | cons a as ih =>
    intro ys
    cases ys with
    | nil => right; rfl
    | cons b bs =>
      rw [pyListLe, pyListLe]
      by_cases hab : lt a b = true
      · left; simp [hab]
      · by_cases hba : lt b a = true
        · right; simp [hba]
        · rcases ih bs with h | h
          · left; simp [hab, hba, h]
          · right; simp [hab, hba, h]

theorem pyListLe_trans {α : Type} (lt : α → α → Bool)
    (hirr : ∀ a, lt a a = false)
    (htr : ∀ a b c, lt a b = true → lt b c = true → lt a c = true)
    (heq : ∀ a b, lt a b = false → lt b a = false → a = b) :
    ∀ xs ys zs : List α, pyListLe lt xs ys = true → pyListLe lt ys zs = true →
      pyListLe lt xs zs = true := by
  intro xs
  induction xs with
  | nil => intro ys zs h1 h2; rfl
  | cons a as ih =>
    intro ys zs h1 h2
    cases ys with
    | nil => simp [pyListLe] at h1
    | cons b bs =>
      cases zs with
      | nil => simp [pyListLe] at h2
      | cons c cs =>
        rw [pyListLe] at h1 h2 ⊢
        by_cases hab : lt a b = true
        · by_cases hbc : lt b c = true
          · simp [htr a b c hab hbc]
          · by_cases hcb : lt c b = true
            · simp [hbc, hcb] at h2
            · have hbc2 := heq b c (by simpa using hbc) (by simpa using hcb)
              subst hbc2
              simp [hab]
        · by_cases hba : lt b a = true
          · simp [hab, hba] at h1
          · have hab2 := heq a b (by simpa using hab) (by simpa using hba)
            subst hab2
            simp only [hirr, Bool.false_eq_true, if_false] at h1 h2 ⊢
            by_cases hac : lt a c = true
            · simp [hac]
            · by_cases hca : lt c a = true
              · simp [hac, hca] at h2
              · have hac2 := heq a c (by simpa using hac) (by simpa using hca)
                subst hac2
                simp only [hirr, Bool.false_eq_true, if_false] at h1 h2 ⊢
                exact ih bs cs h1 h2

theorem insortBy_perm {α : Type} (le : α → α → Bool) (x : α) :
    ∀ l : List α, List.Perm (insortBy le x l) (x :: l) := by
  intro l
  induction l with
  | nil => exact List.Perm.refl _
  | cons y ys ih =>
    rw [insortBy]
    by_cases h : le y x = true
    · simp only [if_pos h]
      exact (ih.cons y).trans (List.Perm.swap x y ys)
    · simp only [if_neg h]
      exact List.Perm.refl _

theorem foldl_insortBy_perm {α : Type} (le : α → α → Bool) :
    ∀ (xs acc : List α),
      List.Perm (List.foldl (fun acc x => insortBy le x acc) acc xs) (acc ++ xs) := by
  intro xs
  induction xs with
  | nil => intro acc; simp
  | cons x xt ih =>
    intro acc
    rw [List.foldl_cons]
    refine (ih _).trans ?_
    refine ((insortBy_perm le x acc).append_right xt).trans ?_
    exact List.perm_middle.symm

theorem sortBy_perm {α : Type} (le : α → α → Bool) (xs : List α) :
    List.Perm (sortBy le xs) xs := by
  simpa using foldl_insortBy_perm le xs []

theorem pairwise_insortBy {α : Type} {le : α → α → Bool}
    (htot : ∀ a b, le a b = true ∨ le b a = true)
    (htr : ∀ a b c, le a b = true → le b c = true → le a c = true)
    (x : α) :
    ∀ {l : List α}, l.Pairwise (fun a b => le a b = true) →
      (insortBy le x l).Pairwise (fun a b => le a b = true) := by
  intro l
  induction l with
  | nil =>
    intro _
    simp [insortBy]
  | cons y ys ih =>
    intro hp
    rcases List.pairwise_cons.1 hp with ⟨hy, hys⟩
    rw [insortBy]
    by_cases h : le y x = true
    · simp only [if_pos h]
      apply List.Pairwise.cons
      · intro z hz
        rcases List.mem_cons.1 ((insortBy_perm le x ys).mem_iff.1 hz) with h1 | h1
        · subst h1; exact h
        · exact hy z h1
      · exact ih hys
    · simp only [if_neg h]
      have hxy : le x y = true := by
        rcases htot x y with h1 | h1
        · exact h1
        · exact absurd h1 h
      apply List.Pairwise.cons
      · intro z hz
        rcases List.mem_cons.1 hz with h1 | h1
        · subst h1; exact hxy
        · exact htr x y z hxy (hy z h1)
      · exact hp

theorem foldl_insortBy_pairwise {α : Type} {le : α → α → Bool}
    (htot : ∀ a b, le a b = true ∨ le b a = true)
    (htr : ∀ a b c, le a b = true → le b c = true → le a c = true) :
    ∀ (xs acc : List α), acc.Pairwise (fun a b => le a b = true) →
      (List.foldl (fun acc x => insortBy le x acc) acc xs).Pairwise
        (fun a b => le a b = true) := by
  intro xs
  induction xs with
  | nil => intro acc h; exact h
  | cons x xt ih =>
    intro acc h
    rw [List.foldl_cons]
    exact ih _ (pairwise_insortBy htot htr x h)

theorem sortBy_pairwise {α : Type} {le : α → α → Bool}
    (htot : ∀ a b, le a b = true ∨ le b a = true)
    (htr : ∀ a b c, le a b = true → le b c = true → le a c = true)
    (xs : List α) :
    (sortBy le xs).Pairwise (fun a b => le a b = true) :=
  foldl_insortBy_pairwise htot htr xs [] List.Pairwise.nil

theorem rawGet_of_mem {α : Type} {d : MultiDict α} (nd : keysNodup d)
    {p : String × List α} (hp : p ∈ d) : MultiDict.rawGet d p.1 = some p.2 := by
  induction d with
  | nil => cases hp
  | cons q qs ih =>
    have nd2 : (q.1 :: List.map Prod.fst qs).Nodup := nd
    rcases List.mem_cons.1 hp with h | h
    · subst h
      simp [MultiDict.rawGet]
    · have hne : ¬ q.1 = p.1 := by
        intro he
        have hm : p.1 ∈ List.map Prod.fst qs := List.mem_map_of_mem Prod.fst h
        exact (List.nodup_cons.1 nd2).1 (he ▸ hm)
      rw [MultiDict.rawGet, if_neg hne]
      exact ih (List.nodup_cons.1 nd2).2 h

theorem eq_of_keys_and_lookup {α : Type} :
    ∀ {d1 d2 : MultiDict α}, keysNodup d1 → MultiDict.keys d1 = MultiDict.keys d2 →
      (∀ p ∈ d1, MultiDict.rawGet d2 p.1 = some p.2) → d1 = d2 := by
  intro d1
  induction d1 with
  | nil =>
    intro d2 _ hk _
    cases d2 with
    | nil => rfl
    | cons q qs => simp [MultiDict.keys] at hk
  | cons p ps ih =>
    intro d2 nd hk hv
    cases d2 with
    | nil => simp [MultiDict.keys] at hk
    | cons q qs =>
      simp only [MultiDict.keys, List.map_cons, List.cons.injEq] at hk
      have hq1 : q.1 = p.1 := hk.1.symm
      have hval := hv p (by simp)
      rw [MultiDict.rawGet, if_pos hq1] at hval
      have hq2 : q.2 = p.2 := by simpa using hval
      have nd2 : (p.1 :: List.map Prod.fst ps).Nodup := nd
      have hps : ps = qs := by
        apply ih (List.nodup_cons.1 nd2).2
        · exact hk.2
        · intro u hu
          have hu1 := hv u (by simp [hu])
          have hne : ¬ q.1 = u.1 := by
            rw [hq1]
            intro he
            have hm : u.1 ∈ List.map Prod.fst ps := List.mem_map_of_mem Prod.fst hu
            exact (List.nodup_cons.1 nd2).1 (he ▸ hm)
          rwa [MultiDict.rawGet, if_neg hne] at hu1
      rw [hps]
      have : q = p := Prod.ext hq1 hq2
      rw [this]

theorem map_keysTr_eq {α : Type} [DecidableEq α] (mdict : MultiDict α)
    (t : List (String × String)) (reverse exclusive : Bool) :
    map_keysTr mdict t reverse exclusive =
      (mdict, map_keys mdict t reverse exclusive) := by
  rw [map_keysTr, map_keys]
  have : ∀ (ks : List String) (out : MultiDict α),
      List.foldl
        (fun st k =>
          let r := getItemR st.1 k
          match dlookup (if reverse then revTable t else t) k with
          | some m => (r.2, MultiDict.append st.2 m r.1)
          | none => if exclusive then (r.2, st.2) else (r.2, MultiDict.append st.2 k r.1))
        (mdict, out) ks =
      (mdict, List.foldl (mkStep mdict (if reverse then revTable t else t) exclusive) out ks) := by
    intro ks
    induction ks with
    | nil => intro out; rfl
    | cons k kt ih =>
      intro out
      rw [List.foldl_cons, List.foldl_cons]
      cases hdl : dlookup (if reverse then revTable t else t) k with
      | some m =>
        simp only [getItemR, hdl, mkStep]
        exact ih _
      | none =>
        cases exclusive with
        | true =>
          simp only [getItemR, hdl, mkStep, if_true]
          exact ih _
        | false =>
          simp only [getItemR, hdl, mkStep, if_false]
          exact ih _
  exact this (MultiDict.keys mdict) []

theorem getItem_nodup {α : Type} {d : MultiDict α} (h : valsNodup d) (k : String) :
    (MultiDict.getItem d k).Nodup := by
  rw [getItem_eq]
  cases hg : MultiDict.rawGet d k with
  | none => simp
  | some vs => simpa using h (k, vs) (rawGet_mem hg)

theorem contains_eq_false_of_getItem_nil {α : Type} {d : MultiDict α} {k : String}
    (h : MultiDict.getItem d k = []) : MultiDict.contains d k = false := by
  cases hx : MultiDict.contains d k with
  | false => rfl
  | true => exact absurd h ((contains_iff_getItem d k).1 hx)

theorem event2person_false_eq_map (data : List (MultiDict String)) :
    event2person data false =
      List.map (fun source => map_keys source eventTable false false) data := by
  induction data with
  | nil => rfl
  | cons s st ih =>
    simp only [event2person] at ih ⊢
    simp at ih ⊢
    exact ih

/-- C4: setting a field to the empty sequence makes membership report it as
absent while reading it returns the empty sequence rather than failing, and
reading any absent field likewise returns the empty sequence, never an
error. -/
theorem empty_field_absent {α : Type} (r : MultiDict α) (f : String) :
    MultiDict.contains (MultiDict.setItem r f []) f = false
    ∧ MultiDict.getItem (MultiDict.setItem r f []) f = []
    ∧ (MultiDict.contains r f = false → MultiDict.getItem r f = []) := by
  refine ⟨?_, getItem_setItem_self r f [], fun h => getItem_of_not_contains h⟩
  simp [MultiDict.contains, rawGet_setItem]

/-- C4 witness: the general absence clause applied to the empty record. -/
theorem empty_field_absent_witness :
    MultiDict.getItem ([] : MultiDict Nat) "foo" = [] :=
  (empty_field_absent ([] : MultiDict Nat) "foo").2.2 rfl

/-- C10: after a field is emptied its key keeps its slot: the key order of
the record is unchanged (so iteration still yields the key at its original
position) and the key is still produced by iteration, even though
membership now reports the field as absent. -/
theorem keys_survive_emptying {α : Type} (r : MultiDict α) (f : String) (vs : List α) :
    (MultiDict.rawGet r f = some vs →
      MultiDict.keys (MultiDict.setItem r f []) = MultiDict.keys r)
    ∧ MultiDict.contains (MultiDict.setItem r f []) f = false
    ∧ f ∈ MultiDict.keys (MultiDict.setItem r f []) := by
  refine ⟨?_, ?_, ?_⟩
  · intro h
    rw [keys_setItem, if_pos]
    by_contra hnot
    rw [(rawGet_eq_none_iff r f).2 hnot] at h
    cases h
  · simp [MultiDict.contains, rawGet_setItem]
  · rw [keys_setItem]
    by_cases hm : f ∈ MultiDict.keys r <;> simp [hm]

/-- C10 witness: the key-order clause applied to a two-field record whose
first field is emptied. -/
theorem keys_survive_emptying_witness :
    MultiDict.keys (MultiDict.setItem ([( "f", [1] ), ( "g", [2] )] : MultiDict Nat) "f" []) =
      MultiDict.keys ([( "f", [1] ), ( "g", [2] )] : MultiDict Nat) :=
  (keys_survive_emptying ([( "f", [1] ), ( "g", [2] )] : MultiDict Nat) "f" [1]).1 rfl

/-- C9: append is duplicate-suppressing and idempotent: appending one value
already present leaves the record unchanged, appending a list extends the
field by exactly the values not already present in first-seen order, and no
other field is touched. -/
theorem append_duplicate_suppression {α : Type} [DecidableEq α] (r : MultiDict α)
    (f : String) (v : α) (vs : List α) :
    (v ∈ MultiDict.getItem r f → MultiDict.append r f [v] = r)
    ∧ MultiDict.getItem (MultiDict.append r f vs) f =
        MultiDict.getItem r f ++ dedupNew (MultiDict.getItem r f) vs
    ∧ (∀ k, k ≠ f → MultiDict.getItem (MultiDict.append r f vs) k = MultiDict.getItem r k) := by
  refine ⟨?_, ?_, ?_⟩
  · intro hv
    simp [MultiDict.append, hv]
  · rw [getItem_append_self, dedupAppend_eq_append_dedupNew]
  · intro k hk
    exact getItem_append_ne r vs hk

/-- C9 witness: the idempotence clause applied to a concrete record. -/
theorem append_duplicate_suppression_witness :
    MultiDict.append ([( "f", [1, 2] )] : MultiDict Nat) "f" [1] = [( "f", [1, 2] )] :=
  (append_duplicate_suppression ([( "f", [1, 2] )] : MultiDict Nat) "f" 1 []).1 (by decide)

/-- C3 counterexample: on the empty record the field foo is absent, yet
join called as the code's signature join(key, default='', sep=',') calls it
with the default argument left out (so default is the empty string, not
None) returns ok "" instead of failing. -/
theorem join_no_default_counterexample :
    MultiDict.contains ([] : MultiDict String) "foo" = false
    ∧ MultiDict.join [] "foo" (some "") "," = Except.ok "" :=
  ⟨rfl, rfl⟩

/-- C3 amended: join fails with a KeyError exactly when the field is absent
and default=None was passed explicitly; when the default argument is left
out the declared default is the empty string, which is returned instead of
an error; a present field returns its single value, or the values joined
with the separator when there are several. -/
theorem join_default_contract (r : MultiDict String) (f s sep v : String)
    (dflt : Option String) (vs : List String) :
    (MultiDict.contains r f = false → MultiDict.join r f none sep = Except.error f)
    ∧ (MultiDict.contains r f = false → MultiDict.join r f (some s) sep = Except.ok s)
    ∧ (MultiDict.getItem r f = [v] → MultiDict.join r f dflt sep = Except.ok v)
    ∧ (MultiDict.getItem r f = v :: vs → vs ≠ [] →
        MultiDict.join r f dflt sep = Except.ok (String.intercalate sep (v :: vs))) := by
  refine ⟨?_, ?_, ?_, ?_⟩
  · intro h
    simp [MultiDict.join, h]
  · intro h
    simp [MultiDict.join, h]
  · intro h
    have hc : MultiDict.contains r f = true := (contains_iff_getItem r f).2 (by simp [h])
    simp [MultiDict.join, hc, h]
  · intro h hne
    cases vs with
    | nil => exact absurd rfl hne
    | cons w ws =>
      have hc : MultiDict.contains r f = true := (contains_iff_getItem r f).2 (by simp [h])
      simp [MultiDict.join, hc, h]

/-- C3 witness: the error clause and the default-argument clause applied to
the empty record. -/
theorem join_default_contract_witness :
    MultiDict.join ([] : MultiDict String) "foo" none "," = Except.error "foo"
    ∧ MultiDict.join ([] : MultiDict String) "foo" (some "bar") "," = Except.ok "bar" :=
  ⟨(join_default_contract [] "foo" "" "," "" none []).1 rfl,
   (join_default_contract [] "foo" "bar" "," "" none []).2.1 rfl⟩

/-- C8: map_keys is non-destructive: with every access the loop makes to
the input record threaded through an explicit state, the input record comes
back unchanged, and the produced record is the one map_keys builds from
scratch. -/
theorem map_keys_nondestructive {α : Type} [DecidableEq α] (r : MultiDict α)
    (t : List (String × String)) (reverse exclusive : Bool) :
    (map_keysTr r t reverse exclusive).1 = r
    ∧ (map_keysTr r t reverse exclusive).2 = map_keys r t reverse exclusive := by
  rw [map_keysTr_eq]
  exact ⟨rfl, rfl⟩

/-- C1: merged performs the set-overlap outer join: each entry is folded,
via MultiDict.update, into the first already-formed group whose key-value
set overlaps its own; an entry disjoint from every group becomes a new
singleton group at the end; a group lacking the key field is disjoint from
everything, so entries lacking the key stay singletons and never attract
later entries; and the four-record example merges to exactly the three
expected records. -/
theorem merged_set_overlap_join {α : Type} [DecidableEq α]
    (data tmp tmp1 tmp2 : List (MultiDict α)) (e g : MultiDict α) (key : String) :
    (merged (data ++ [e]) key = mergeStep (merged data key) e key)
    ∧ ((∀ u ∈ tmp, disjointB (MultiDict.getItem e key) (MultiDict.getItem u key) = true) →
        mergeStep tmp e key = tmp ++ [e])
    ∧ ((∀ u ∈ tmp1, disjointB (MultiDict.getItem e key) (MultiDict.getItem u key) = true) →
        disjointB (MultiDict.getItem e key) (MultiDict.getItem g key) = false →
        mergeStep (tmp1 ++ g :: tmp2) e key = tmp1 ++ MultiDict.update g e :: tmp2)
    ∧ (MultiDict.getItem g key = [] →
        disjointB (MultiDict.getItem e key) (MultiDict.getItem g key) = true)
    ∧ ((∀ d ∈ data, MultiDict.getItem d key = []) → merged data key = data)
    ∧ merged ([[( "foo", [1] ), ( "bar", [1, 2] )], [( "foo", [1] ), ( "bar", [2, 3] )],
          [( "foo", [2] ), ( "bar", [4] )], [( "bar", [5] )]] : List (MultiDict Nat)) "foo" =
        [[( "foo", [1] ), ( "bar", [1, 2, 3] )], [( "foo", [2] ), ( "bar", [4] )],
          [( "bar", [5] )]] := by
  refine ⟨merged_append data key e, fun h => mergeStep_all_disjoint h,
    fun h1 h2 => mergeStep_first_overlap tmp1 g tmp2 h1 h2, ?_,
    fun h => merged_all_missing h, by decide⟩
  intro h
  rw [h]
  exact disjointB_nil_right _

/-- C1 witness: the singleton clause applied to one keyless record, and the
first-overlap clause applied to one group. -/
theorem merged_set_overlap_join_witness :
    merged ([[( "bar", [5] )]] : List (MultiDict Nat)) "foo" = [[( "bar", [5] )]]
    ∧ mergeStep ([[( "foo", [1] )]] : List (MultiDict Nat)) [( "foo", [1, 2] )] "foo" =
        [MultiDict.update [( "foo", [1] )] [( "foo", [1, 2] )]] :=
  ⟨(merged_set_overlap_join ([[( "bar", [5] )]] : List (MultiDict Nat)) [] [] [] [] []
      "foo").2.2.2.2.1 (by decide),
   (merged_set_overlap_join ([] : List (MultiDict Nat)) [] [] [] [( "foo", [1, 2] )]
      [( "foo", [1] )] "foo").2.2.1 (by simp) (by decide)⟩

/-- C5 counterexample: two records holding the same fields with the same
value sequences, inserted in the two possible orders, are slot-for-slot
permutations of each other yet compare unequal, because MultiDict inherits
OrderedDict's order-sensitive equality. -/
theorem record_eq_order_counterexample :
    List.Perm ([( "a", [ "x" ] ), ( "b", [ "y" ] )] : MultiDict String)
      ([( "b", [ "y" ] ), ( "a", [ "x" ] )])
    ∧ MultiDict.pyEq ([( "a", [ "x" ] ), ( "b", [ "y" ] )] : MultiDict String)
        ([( "b", [ "y" ] ), ( "a", [ "x" ] )]) = false :=
  ⟨List.Perm.swap _ _ _, by decide⟩

/-- C5 amended: record equality is insertion-order-sensitive: two records
with one slot per key compare equal exactly when they hold the same fields
with the same value sequences in the same insertion order. -/
theorem record_eq_order_sensitive {α : Type} [DecidableEq α] (d1 d2 : MultiDict α)
    (h1 : keysNodup d1) (h2 : keysNodup d2) :
    MultiDict.pyEq d1 d2 = true ↔ d1 = d2 := by
  constructor
  · intro h
    rw [MultiDict.pyEq, Bool.and_eq_true] at h
    obtain ⟨ha, hb⟩ := h
    apply eq_of_keys_and_lookup h1 (of_decide_eq_true ha)
    intro p hp
    exact of_decide_eq_true (List.all_eq_true.1 hb p hp)
  · intro h
    subst h
    rw [MultiDict.pyEq, Bool.and_eq_true]
    constructor
    · simp
    · rw [List.all_eq_true]
      intro p hp
      exact decide_eq_true (rawGet_of_mem h1 hp)

/-- C5 witness: the amended equality applied to two concrete records. -/
theorem record_eq_order_sensitive_witness :
    MultiDict.pyEq ([( "a", [ "x" ] )] : MultiDict String) [( "b", [ "y" ] )] = true ↔
      ([( "a", [ "x" ] )] : MultiDict String) = [( "b", [ "y" ] )] :=
  record_eq_order_sensitive ([( "a", [ "x" ] )] : MultiDict String) [( "b", [ "y" ] )]
    (by decide) (by decide)

/-- C7 counterexample: with input format json, which is in neither family,
and output format abook of the person family, the code still applies the
forward kind translation and renames summary to name, while the claim's
condition (output person family and input event family, or vice versa) says
the records pass through unchanged. -/
theorem translate_ignores_informat_counterexample :
    translateStep "abook" [[( "summary", [ "S" ] )]] = [[( "name", [ "S" ] )]]
    ∧ translateStepSpec "json" "abook" [[( "summary", [ "S" ] )]] =
        [[( "summary", [ "S" ] )]]
    ∧ ([[( "name", [ "S" ] )]] : List (MultiDict String)) ≠ [[( "summary", [ "S" ] )]] := by
  refine ⟨by decide, ?_, by decide⟩
  have h1 : ¬ (( "abook" : String) ∈ PERSON ∧ ( "json" : String) ∈ EVENT) := by decide
  have h2 : ¬ (( "abook" : String) ∈ EVENT ∧ ( "json" : String) ∈ PERSON) := by decide
  rw [translateStepSpec, if_neg h1, if_neg h2]

/-- C7 amended: the kind-translation step looks at the output format alone:
it applies the forward translation when the output format is of the person
family, the reverse translation when it is of the event family, and leaves
the records unchanged otherwise; the input format is never consulted. -/
theorem translate_by_outformat (fmt : String) (data : List (MultiDict String)) :
    (fmt ∈ PERSON → translateStep fmt data = event2person data false)
    ∧ (fmt ∈ EVENT → translateStep fmt data = event2person data true)
    ∧ (fmt ∉ PERSON → fmt ∉ EVENT → translateStep fmt data = data) := by
  refine ⟨?_, ?_, ?_⟩
  · intro h
    have h2 : fmt ∉ EVENT := by
      simp only [PERSON, List.mem_cons, List.not_mem_nil, or_false] at h
      rcases h with h | h <;> subst h <;> decide
    simp [translateStep, h, h2]
  · intro h
    have h2 : fmt ∉ PERSON := by
      simp only [EVENT, List.mem_cons, List.not_mem_nil, or_false] at h
      rcases h with h | h <;> subst h <;> decide
    simp [translateStep, h, h2]
  · intro hp he
    simp [translateStep, hp, he]

/-- C7 witness: the amended characterization applied to the three concrete
output formats json, abook and bsdcal. -/
theorem translate_by_outformat_witness :
    translateStep "json" [[( "summary", [ "S" ] )]] = [[( "summary", [ "S" ] )]]
    ∧ translateStep "abook" [[( "summary", [ "S" ] )]] =
        event2person [[( "summary", [ "S" ] )]] false
    ∧ translateStep "bsdcal" [[( "summary", [ "S" ] )]] =
        event2person [[( "summary", [ "S" ] )]] true :=
  ⟨(translate_by_outformat "json" [[( "summary", [ "S" ] )]]).2.2 (by decide) (by decide),
   (translate_by_outformat "abook" [[( "summary", [ "S" ] )]]).1 (by decide),
   (translate_by_outformat "bsdcal" [[( "summary", [ "S" ] )]]).2.1 (by decide)⟩

/-- C6 counterexample: on the records name=[a, b] and name=[a] the pipeline
sorts with the whole value list as key, which puts [a] strictly before
[a, b] and swaps the records, while a stable ascending sort keyed by the
first value, as the claim words it, finds the keys tied and keeps the
input order — so the two disagree. -/
theorem sort_key_counterexample :
    sortByField [[( "name", [ "a", "b" ] )], [( "name", [ "a" ] )]] "name" =
      [[( "name", [ "a" ] )], [( "name", [ "a", "b" ] )]]
    ∧ sortByFirstValue [[( "name", [ "a", "b" ] )], [( "name", [ "a" ] )]] "name" =
        [[( "name", [ "a", "b" ] )], [( "name", [ "a" ] )]]
    ∧ sortByField [[( "name", [ "a", "b" ] )], [( "name", [ "a" ] )]] "name" ≠
        sortByFirstValue [[( "name", [ "a", "b" ] )], [( "name", [ "a" ] )]] "name" :=
  ⟨by decide, by decide, by decide⟩

/-- C6 amended: the sort step is a stable ascending sort whose key is the
record's whole value list for the chosen field (an absent field gives the
empty list, which sorts before everything): the output is a permutation of
the input, consecutive outputs are ordered under the Python list
comparison, and the b, a, c example sorts to a, b, c. -/
theorem sort_full_sequence (data : List (MultiDict String)) (field : String) :
    List.Perm (sortByField data field) data
    ∧ (sortByField data field).Pairwise
        (fun x y =>
          pyListLe strLtB (MultiDict.getItem x field) (MultiDict.getItem y field) = true)
    ∧ sortByField [[( "name", [ "b" ] )], [( "name", [ "a" ] )], [( "name", [ "c" ] )]]
        "name" =
        [[( "name", [ "a" ] )], [( "name", [ "b" ] )], [( "name", [ "c" ] )]] := by
  refine ⟨sortBy_perm _ data, ?_, by decide⟩
  apply sortBy_pairwise
  · intro a b
    exact pyListLe_total strLtB _ _
  · intro a b c h1 h2
    exact pyListLe_trans strLtB strLtB_irrefl
      (fun x y z hx hy => strLtB_trans hx hy)
      (fun x y hx hy => strLtB_eq hx hy) _ _ _ h1 h2

theorem mapkeys_fwd_name (r : MultiDict String) (hknd : keysNodup r) (hv : valsNodup r)
    (hname : MultiDict.rawGet r "name" = none) :
    MultiDict.getItem (map_keys r eventTable false false) "name" =
      MultiDict.getItem r "summary" := by
  apply getItem_map_keys_single r eventTable false false "summary" "name" ?_ hknd
    (getItem_nodup hv "summary")
  intro k hk
  have hnm : "name" ∉ MultiDict.keys r := (rawGet_eq_none_iff r "name").1 hname
  show outKey eventTable false k = some "name" ↔ k = "summary"
  rw [outKey_eventTable]
  by_cases h1 : k = "summary"
  · subst h1; decide
  · by_cases h2 : k = "dtstart"
    · subst h2; decide
    · rw [if_neg h1, if_neg h2]
      constructor
      · intro he
        have hkn : k = "name" := by simpa using he
        exact absurd (hkn ▸ hk) hnm
      · intro he
        exact absurd he h1

theorem mapkeys_fwd_bday (r : MultiDict String) (hknd : keysNodup r) (hv : valsNodup r)
    (hbday : MultiDict.rawGet r "bday" = none) :
    MultiDict.getItem (map_keys r eventTable false false) "bday" =
      MultiDict.getItem r "dtstart" := by
  apply getItem_map_keys_single r eventTable false false "dtstart" "bday" ?_ hknd
    (getItem_nodup hv "dtstart")
  intro k hk
  have hnm : "bday" ∉ MultiDict.keys r := (rawGet_eq_none_iff r "bday").1 hbday
  show outKey eventTable false k = some "bday" ↔ k = "dtstart"
  rw [outKey_eventTable]
  by_cases h1 : k = "summary"
  · subst h1; decide
  · by_cases h2 : k = "dtstart"
    · subst h2; decide
    · rw [if_neg h1, if_neg h2]
      constructor
      · intro he
        have hkn : k = "bday" := by simpa using he
        exact absurd (hkn ▸ hk) hnm
      · intro he
        exact absurd he h2

theorem mapkeys_fwd_pass (r : MultiDict String) (hknd : keysNodup r) (hv : valsNodup r)
    (k : String) (hk1 : k ≠ "summary") (hk2 : k ≠ "dtstart") (hk3 : k ≠ "name")
    (hk4 : k ≠ "bday") :
    MultiDict.getItem (map_keys r eventTable false false) k = MultiDict.getItem r k := by
  apply getItem_map_keys_single r eventTable false false k k ?_ hknd (getItem_nodup hv k)
  intro k1 hk1m
  show outKey eventTable false k1 = some k ↔ k1 = k
  rw [outKey_eventTable]
  by_cases h1 : k1 = "summary"
  · subst h1
    rw [if_pos rfl]
    constructor
    · intro he
      have hkn : ( "name" : String) = k := by simpa using he
      exact absurd hkn.symm hk3
    · intro he
      exact absurd he.symm hk1
  · by_cases h2 : k1 = "dtstart"
    · subst h2
      rw [if_neg (by decide), if_pos rfl]
      constructor
      · intro he
        have hkn : ( "bday" : String) = k := by simpa using he
        exact absurd hkn.symm hk4
      · intro he
        exact absurd he.symm hk2
    · rw [if_neg h1, if_neg h2]
      simp

theorem mapkeys_rev_summary (r : MultiDict String) (hknd : keysNodup r) (hv : valsNodup r)
    (hsum : MultiDict.rawGet r "summary" = none) :
    MultiDict.getItem (map_keys r eventTable true false) "summary" =
      MultiDict.getItem r "name" := by
  apply getItem_map_keys_single r eventTable true false "name" "summary" ?_ hknd
    (getItem_nodup hv "name")
  intro k hk
  have hnm : "summary" ∉ MultiDict.keys r := (rawGet_eq_none_iff r "summary").1 hsum
  show outKey (revTable eventTable) false k = some "summary" ↔ k = "name"
  rw [outKey_revEventTable]
  by_cases h1 : k = "name"
  · subst h1; decide
  · by_cases h2 : k = "bday"
    · subst h2; decide
    · rw [if_neg h1, if_neg h2]
      constructor
      · intro he
        have hkn : k = "summary" := by simpa using he
        exact absurd (hkn ▸ hk) hnm
      · intro he
        exact absurd he h1

theorem mapkeys_rev_dtstart (r : MultiDict String) (hknd : keysNodup r) (hv : valsNodup r)
    (hdt : MultiDict.rawGet r "dtstart" = none) :
    MultiDict.getItem (map_keys r eventTable true false) "dtstart" =
      MultiDict.getItem r "bday" := by
  apply getItem_map_keys_single r eventTable true false "bday" "dtstart" ?_ hknd
    (getItem_nodup hv "bday")
  intro k hk
  have hnm : "dtstart" ∉ MultiDict.keys r := (rawGet_eq_none_iff r "dtstart").1 hdt
  show outKey (revTable eventTable) false k = some "dtstart" ↔ k = "bday"
  rw [outKey_revEventTable]
  by_cases h1 : k = "name"
  · subst h1; decide
  · by_cases h2 : k = "bday"
    · subst h2; decide
    · rw [if_neg h1, if_neg h2]
      constructor
      · intro he
        have hkn : k = "dtstart" := by simpa using he
        exact absurd (hkn ▸ hk) hnm
      · intro he
        exact absurd he h2

theorem mapkeys_rev_pass (r : MultiDict String) (hknd : keysNodup r) (hv : valsNodup r)
    (k : String) (hk1 : k ≠ "name") (hk2 : k ≠ "bday") (hk3 : k ≠ "summary")
    (hk4 : k ≠ "dtstart") :
    MultiDict.getItem (map_keys r eventTable true false) k = MultiDict.getItem r k := by
  apply getItem_map_keys_single r eventTable true false k k ?_ hknd (getItem_nodup hv k)
  intro k1 hk1m
  show outKey (revTable eventTable) false k1 = some k ↔ k1 = k
  rw [outKey_revEventTable]
  by_cases h1 : k1 = "name"
  · subst h1
    rw [if_pos rfl]
    constructor
    · intro he
      have hkn : ( "summary" : String) = k := by simpa using he
      exact absurd hkn.symm hk3
    · intro he
      exact absurd he.symm hk1
  · by_cases h2 : k1 = "bday"
    · subst h2
      rw [if_neg (by decide), if_pos rfl]
      constructor
      · intro he
        have hkn : ( "dtstart" : String) = k := by simpa using he
        exact absurd hkn.symm hk4
      · intro he
        exact absurd he.symm hk2
    · rw [if_neg h1, if_neg h2]
      simp

/-- C2: event2person is asymmetric.  Forward, every input record is emitted
and, for an event record (one slot per key, duplicate-free values, no name
or bday field of its own), summary is renamed to name, dtstart to bday, and
every other field passes through.  In reverse, a record is emitted only
when its target has a dtstart; for a person record with a bday (and no
summary, dtstart or freq field of its own) one record is emitted with name
renamed to summary, bday to dtstart, freq set to [yearly] and other fields
passed through; a record containing neither bday nor dtstart yields no
output; and the two spec scenarios compute as claimed. -/
theorem event2person_asymmetry :
    (∀ data : List (MultiDict String), (event2person data false).length = data.length)
    ∧ (∀ r o : MultiDict String, keysNodup r → valsNodup r →
        MultiDict.rawGet r "name" = none → MultiDict.rawGet r "bday" = none →
        event2person [r] false = [o] →
          MultiDict.getItem o "name" = MultiDict.getItem r "summary"
          ∧ MultiDict.getItem o "bday" = MultiDict.getItem r "dtstart"
          ∧ ∀ k, k ≠ "summary" → k ≠ "dtstart" → k ≠ "name" → k ≠ "bday" →
              MultiDict.getItem o k = MultiDict.getItem r k)
    ∧ (∀ (data : List (MultiDict String)) (o : MultiDict String),
        o ∈ event2person data true → MultiDict.contains o "dtstart" = true)
    ∧ (∀ r : MultiDict String, keysNodup r → valsNodup r →
        MultiDict.rawGet r "summary" = none → MultiDict.rawGet r "dtstart" = none →
        MultiDict.rawGet r "freq" = none → MultiDict.contains r "bday" = true →
        ∃ o, event2person [r] true = [o]
          ∧ MultiDict.getItem o "summary" = MultiDict.getItem r "name"
          ∧ MultiDict.getItem o "dtstart" = MultiDict.getItem r "bday"
          ∧ MultiDict.getItem o "freq" = [ "yearly" ]
          ∧ ∀ k, k ≠ "name" → k ≠ "bday" → k ≠ "summary" → k ≠ "dtstart" → k ≠ "freq" →
              MultiDict.getItem o k = MultiDict.getItem r k)
    ∧ (∀ r : MultiDict String, MultiDict.contains r "bday" = false →
        MultiDict.contains r "dtstart" = false → event2person [r] true = [])
    ∧ event2person [[( "summary", [ "S" ] )]] false = [[( "name", [ "S" ] )]]
    ∧ event2person [[( "name", [ "N" ] )]] true = [] := by
  refine ⟨?_, ?_, ?_, ?_, ?_, by decide, by decide⟩
  · intro data
    rw [event2person_false_eq_map, List.length_map]
  · intro r o hknd hv hname hbday hro
    rw [event2person_false_eq_map] at hro
    simp only [List.map_cons, List.map_nil, List.cons.injEq, and_true] at hro
    subst hro
    exact ⟨mapkeys_fwd_name r hknd hv hname, mapkeys_fwd_bday r hknd hv hbday,
      fun k h1 h2 h3 h4 => mapkeys_fwd_pass r hknd hv k h1 h2 h3 h4⟩
  · intro data o ho
    rw [event2person] at ho
    rcases List.mem_filterMap.1 ho with ⟨s, hs, hf⟩
    simp only [Bool.not_true, Bool.false_or] at hf
    split at hf
    · split at hf
      · next hcond =>
        exact (Option.some.inj hf) ▸ hcond
      · exact absurd hf (by simp)
    · split at hf
      · next hcond =>
        exact (Option.some.inj hf) ▸ hcond
      · exact absurd hf (by simp)
  · intro r hknd hv hsum hdt hfreq hb
    have hsum2 := mapkeys_rev_summary r hknd hv hsum
    have hdt2 := mapkeys_rev_dtstart r hknd hv hdt
    have hfrq0 : MultiDict.getItem (map_keys r eventTable true false) "freq" =
        MultiDict.getItem r "freq" :=
      mapkeys_rev_pass r hknd hv "freq" (by decide) (by decide) (by decide) (by decide)
    have hfreq_nil : MultiDict.getItem r "freq" = [] := by
      rw [getItem_eq, hfreq]
      rfl
    have hcontb : MultiDict.getItem r "bday" ≠ [] := (contains_iff_getItem r "bday").1 hb
    have g1 : MultiDict.getItem
        (MultiDict.append (map_keys r eventTable true false) "freq" [ "yearly" ]) "summary" =
        MultiDict.getItem (map_keys r eventTable true false) "summary" :=
      getItem_append_ne (map_keys r eventTable true false) [ "yearly" ] (by decide)
    have hod : MultiDict.getItem
        (MultiDict.append (map_keys r eventTable true false) "freq" [ "yearly" ]) "dtstart" =
        MultiDict.getItem r "bday" := by
      rw [getItem_append_ne (map_keys r eventTable true false) [ "yearly" ] (by decide), hdt2]
    have g3 : MultiDict.getItem
        (MultiDict.append (map_keys r eventTable true false) "freq" [ "yearly" ]) "freq" =
        [ "yearly" ] := by
      rw [getItem_append_self, hfrq0, hfreq_nil]
      decide
    have hcont : MultiDict.contains
        (MultiDict.append (map_keys r eventTable true false) "freq" [ "yearly" ]) "dtstart" =
        true := by
      apply (contains_iff_getItem _ _).2
      rw [hod]
      exact hcontb
    refine ⟨MultiDict.append (map_keys r eventTable true false) "freq" [ "yearly" ],
      ?_, g1.trans hsum2, hod, g3, ?_⟩
    · simp [event2person, hb, hcont]
    · intro k h1 h2 h3 h4 h5
      rw [getItem_append_ne (map_keys r eventTable true false) [ "yearly" ] h5,
        mapkeys_rev_pass r hknd hv k h1 h2 h3 h4]
  · intro r hb hd
    have hdt_nil : MultiDict.getItem (map_keys r eventTable true false) "dtstart" = [] := by
      apply getItem_map_keys_empty
      intro k hk hout
      have hout2 : outKey (revTable eventTable) false k = some "dtstart" := hout
      rw [outKey_revEventTable] at hout2
      by_cases h1 : k = "name"
      · rw [if_pos h1] at hout2
        simp at hout2
      · by_cases h2 : k = "bday"
        · subst h2
          exact getItem_of_not_contains hb
        · rw [if_neg h1, if_neg h2] at hout2
          have hk2 : k = "dtstart" := by simpa using hout2
          subst hk2
          exact getItem_of_not_contains hd
    have hcont0 : MultiDict.contains (map_keys r eventTable true false) "dtstart" = false :=
      contains_eq_false_of_getItem_nil hdt_nil
    simp [event2person, hb, hcont0]

/-- C2 witness: the forward renaming clause applied to a concrete event
record, and the reverse drop clause applied to a concrete person record
without a bday. -/
theorem event2person_asymmetry_witness :
    MultiDict.getItem ([( "name", [ "S" ] ), ( "loc", [ "L" ] )] : MultiDict String) "name" =
      MultiDict.getItem ([( "summary", [ "S" ] ), ( "loc", [ "L" ] )] : MultiDict String)
        "summary"
    ∧ event2person [[( "name", [ "N" ] ), ( "tag", [ "t" ] )]] true = [] :=
  ⟨(event2person_asymmetry.2.1 [( "summary", [ "S" ] ), ( "loc", [ "L" ] )]
      [( "name", [ "S" ] ), ( "loc", [ "L" ] )] (by decide) (by decide) (by decide)
      (by decide) (by decide)).1,
   event2person_asymmetry.2.2.2.2.1 [( "name", [ "N" ] ), ( "tag", [ "t" ] )]
     (by decide) (by decide)⟩
